import Mathlib

/-!
# Verification of the PostProcessingGui plugin

Shallow embedding of the PostProcessingGui Cura plugin
(`GcodeInjector.py`, `PostProcessingGui.py`, `RecursiveDictOverlay.py`,
`Resources/scripts/InsertGcodeAtLayer.py`, `Resources/scripts/SwapFilament.py`).

Python strings are modelled as `List Char`; Python `str` operations used by the
plugin (`replace`, `split`, `strip`, `join`, `int()` conversion) are embedded as
executable functions below.  Host objects (Cura's `Script` stack, views, the
post-processing plugin's script list) are modelled as plain structures carrying
exactly the data the embedded functions read.  All definitions are translated
from the repository sources; definitions that transcribe a claim's own wording
are marked as specification definitions.
-/

namespace PPG

/-- Python strings are modelled as lists of characters. -/
abbrev Str := List Char

/-- The backslash character. -/
def bsc : Char := '\\'

/-- The newline character. -/
def nlc : Char := '\n'

/-- Fuel-driven worker for `pyReplace`; the fuel only bounds the recursion
depth and is irrelevant as long as it is at least the input length. -/
def pyReplaceF (p : Char) (ps rep : Str) : Nat → Str → Str
  | _, [] => []
  | 0, _ :: _ => []
  | fuel + 1, c :: cs =>
      if (p :: ps).isPrefixOf (c :: cs) then
        rep ++ pyReplaceF p ps rep fuel (cs.drop ps.length)
      else
        c :: pyReplaceF p ps rep fuel cs

/-- Models Python `str.replace(pat, rep)` for a non-empty pattern `p :: ps`:
scan left to right, replace each non-overlapping occurrence of the pattern with
`rep`, and never rescan the replacement text.  (The plugin only ever calls
`replace` with non-empty literal patterns.) -/
def pyReplace (p : Char) (ps rep s : Str) : Str :=
  pyReplaceF p ps rep s.length s

/-- Models Python `str.split('\n')`: the list of newline-separated pieces,
with empty pieces kept (`''.split('\n') == ['']`). -/
def splitNl : Str → List Str
  | [] => [[]]
  | c :: cs =>
      if c = nlc then [] :: splitNl cs
      else
        match splitNl cs with
        | [] => [[c]]
        | h :: t => (c :: h) :: t

/-- Models Python `'\n'.join(blocks)`. -/
def joinNl : List Str → Str
  | [] => []
  | [b] => b
  | b :: rest => b ++ nlc :: joinNl rest

/-- Models Python's notion of (ASCII) whitespace used by `str.strip()` and
`str` conversion in `int()`.  Unicode whitespace beyond ASCII is outside the
modelled fragment. -/
def isPyWS (c : Char) : Bool :=
  c == ' ' || c == '\t' || c == nlc || c == '\x0d' || c == '\x0b' || c == '\x0c'

/-- Models Python `str.lstrip()`. -/
def pyStripLeft (s : Str) : Str := s.dropWhile isPyWS

/-- Models Python `str.strip()`. -/
def pyStrip (s : Str) : Str :=
  ((pyStripLeft s).reverse.dropWhile isPyWS).reverse

/-- The numeric value of a list of decimal digit characters. -/
def digitsToNat (ds : Str) : Nat :=
  ds.foldl (fun a c => a * 10 + (c.toNat - 48)) 0

/-- Models Python `int(s)` on strings: surrounding whitespace is ignored, an
optional sign is allowed, and the remainder must be a non-empty run of decimal
digits (digit-group underscores and non-ASCII digits are outside the modelled
fragment).  Returns `none` where `int()` raises `ValueError`. -/
def pyIntOfString (s : Str) : Option Int :=
  match pyStrip s with
  | '+' :: ds => if ds ≠ [] ∧ ds.all Char.isDigit then some ((digitsToNat ds : Nat) : Int) else none
  | '-' :: ds => if ds ≠ [] ∧ ds.all Char.isDigit then some (-((digitsToNat ds : Nat) : Int)) else none
  | ds => if ds ≠ [] ∧ ds.all Char.isDigit then some ((digitsToNat ds : Nat) : Int) else none

/-! ## C1: the injection-settings blob of `GcodeInjector.py`

`saveInjectionScriptSettings` (GcodeInjector.py:320-369) serializes each
injection script's settings with `configparser` into one `[name]` section,
escapes the serialized text with
`.replace('\\\\', r'\\\\').replace('\n', r'\\\n')`, and joins the script
blocks with `'\n'`.  `_restoreInjectionScripts` (GcodeInjector.py:505-612)
splits on `'\n'`, un-escapes with `.replace(r'\\\n', '\n').replace(r'\\\\',
'\\\\')`, re-parses each block with `configparser` and restores the settings
of each recognized (non-reserved) section. -/

/-- `configparser` encodes a multi-line option value by indenting continuation
lines: `value.replace('\n', '\n\t')`. -/
def encodeValue (v : Str) : Str := pyReplace nlc [] [nlc, '\t'] v

/-- One option line as written by `configparser.write` with the default
`key = value` delimiter. -/
def optionLine (k v : Str) : Str :=
  k ++ (' ' :: '=' :: ' ' :: encodeValue v) ++ [nlc]

/-- The text `configparser.write` produces for the single section
`saveInjectionScriptSettings` adds per script: a `[name]` header line, one
`key = value` line per setting (keys kept case-sensitive via
`optionxform = str`), and a trailing blank line. -/
def serializeSection (nm : Str) (kvs : List (Str × Str)) : Str :=
  '[' :: nm ++ (']' :: nlc :: (kvs.map (fun kv => optionLine kv.1 kv.2)).flatten) ++ [nlc]

/-- The escape `saveInjectionScriptSettings` applies to each serialized block:
first every two-backslash pair becomes four backslashes, then every newline
becomes the four characters backslash-backslash-backslash-`n`. -/
def escapeSettings (s : Str) : Str :=
  pyReplace nlc [] [bsc, bsc, bsc, 'n'] (pyReplace bsc [bsc] [bsc, bsc, bsc, bsc] s)

/-- The inverse replacements `_restoreInjectionScripts` applies to each piece:
first backslash-backslash-backslash-`n` becomes a newline, then four
backslashes become two. -/
def unescapeSettings (s : Str) : Str :=
  pyReplace bsc [bsc, bsc, bsc] [bsc, bsc] (pyReplace bsc [bsc, bsc, 'n'] [nlc] s)

/-- `saveInjectionScriptSettings`, modelled on the ordered mapping
(script name, settings) held in `self._injection_scripts` (each setting value
already converted with `str`): serialize each script to one config section,
escape it, and join the blocks with `'\n'`. -/
def saveInjectionScriptSettings (scripts : List (Str × List (Str × Str))) : Str :=
  joinNl (scripts.map (fun sc => escapeSettings (serializeSection sc.1 sc.2)))

/-- A parsed config section: its name and its option key/value pairs. -/
abbrev ConfigSection := Str × List (Str × Str)

/-- A line consisting only of whitespace, skipped by the config reader. -/
def isBlankLine (l : Str) : Bool := l.all isPyWS

/-- Models `configparser`'s section-header recognition (`[header]`) on the
line shapes this plugin writes. -/
def headerName (l : Str) : Option Str :=
  match l with
  | c :: rest =>
      if c = '[' ∧ rest.getLast? = some ']' ∧ rest.dropLast ≠ [] then
        some rest.dropLast
      else none
  | [] => none

/-- `configparser`'s option/value delimiters `=` and `:`. -/
def delimChar (c : Char) : Bool := c == '=' || c == ':'

/-- Split a line at the first delimiter character, as `configparser`'s option
regex does; `none` when the line holds no delimiter. -/
def splitFirstDelim : Str → Option (Str × Str)
  | [] => none
  | c :: cs =>
      if delimChar c then some ([], cs)
      else (splitFirstDelim cs).map (fun pr => (c :: pr.1, pr.2))

/-- Record an option into the section currently being parsed (the last one
opened). -/
def addOptionToLast : List ConfigSection → (Str × Str) → List ConfigSection
  | [], _ => []
  | [(nm, kvs)], kv => [(nm, kvs ++ [kv])]
  | sec :: rest, kv => sec :: addOptionToLast rest kv

/-- Models `configparser.read_string` on the restricted line shapes this
development considers (single-line option values): blank lines are skipped,
`[name]` lines open a new section, and `key = value` lines add a
whitespace-stripped key/value pair to the open section.  Continuation lines
and blank-lines-in-values are outside the modelled fragment, and inputs on
which `configparser` raises (options before any section, undelimited lines)
are skipped rather than failing the whole parse. -/
def parseConfigLines : List Str → List ConfigSection → List ConfigSection
  | [], acc => acc
  | l :: rest, acc =>
      if isBlankLine l then parseConfigLines rest acc
      else
        match headerName l with
        | some nm => parseConfigLines rest (acc ++ [(nm, [])])
        | none =>
            match splitFirstDelim l with
            | some pr => parseConfigLines rest (addOptionToLast acc (pyStrip pr.1, pyStrip pr.2))
            | none => parseConfigLines rest acc

/-- Parse a config text into its sections. -/
def parseConfig (s : Str) : List ConfigSection := parseConfigLines (splitNl s) []

/-- The section names `_restoreInjectionScripts` treats specially instead of
restoring settings from them: the parser's `DEFAULT` section and the two
legacy sections. -/
def reservedSectionNames : List Str :=
  ["DEFAULT".data, "Selected Injection Name".data, "Injection Script Indexes".data]

/-- `_restoreInjectionScripts`, modelled as the settings it restores: split the
combined blob on `'\n'`, skip empty pieces, un-escape and parse each piece, and
for every parsed section that is neither reserved nor unrecognized restore its
key/value pairs onto the script of that name (returned here as the list of
restored (name, settings) in restoration order). -/
def restoreInjectionScripts (recognized : List Str) (combined : Str) :
    List (Str × List (Str × Str)) :=
  ((splitNl combined).filter (fun piece => piece ≠ [])).foldl
    (fun acc piece =>
      acc ++ (parseConfig (unescapeSettings piece)).filterMap (fun sec =>
        if sec.1 ∈ reservedSectionNames then none
        else if sec.1 ∈ recognized then some sec
        else none))
    []

/-- A character allowed in the well-formed script names and setting keys of the
amended round-trip statement. -/
def isIdentChar (c : Char) : Bool := c.isAlphanum

/-- A well-formed token (script name or setting key): non-empty, all
alphanumeric. -/
def wfToken (s : Str) : Prop := s ≠ [] ∧ ∀ c ∈ s, isIdentChar c

/-- A well-formed setting value for the amended round-trip statement: no
backslash, no newline, and unchanged by whitespace stripping. -/
def wfValue (v : Str) : Prop := bsc ∉ v ∧ nlc ∉ v ∧ pyStrip v = v

/-- A well-formed injection-script section. -/
def wfSection (nm : Str) (kvs : List (Str × Str)) : Prop :=
  wfToken nm ∧ ∀ kv ∈ kvs, wfToken kv.1 ∧ wfValue kv.2

instance (s : Str) : Decidable (wfToken s) := by
  unfold wfToken
  infer_instance

instance (v : Str) : Decidable (wfValue v) := by
  unfold wfValue
  infer_instance

instance (nm : Str) (kvs : List (Str × Str)) : Decidable (wfSection nm kvs) := by
  unfold wfSection
  infer_instance

/-! ## C2: `_enumerateLayerElapsedTime` of `PostProcessingGui.py` (556-594) -/

/-- The literal prefix of the layer-marker regex `;LAYER:(\d+)\s*`. -/
def layerPrefix : Str := ";LAYER:".data

/-- The literal prefix of the elapsed-time regex `;TIME_ELAPSED:(\d+\.?\d*)`. -/
def timePrefix : Str := ";TIME_ELAPSED:".data

/-- `re.match(r';LAYER:(\d+)\s*', line)`: the line must start with `;LAYER:`
followed by at least one digit; the group is the maximal digit run, returned
as its integer value (`\s*` matches the empty string, so it never rejects). -/
def layerMatch (l : Str) : Option Nat :=
  if layerPrefix.isPrefixOf l then
    let rest := l.drop layerPrefix.length
    let ds := rest.takeWhile Char.isDigit
    if ds ≠ [] then some (digitsToNat ds) else none
  else none

/-- `re.match(r';TIME_ELAPSED:(\d+\.?\d*)', line)` followed by `float(...)` on
the matched group: the line must start with `;TIME_ELAPSED:` and at least one
digit; the group greedily takes digits, an optional dot, and further digits.
The group's numeric value is modelled exactly as a rational. -/
def timeMatch (l : Str) : Option Rat :=
  if timePrefix.isPrefixOf l then
    let rest := l.drop timePrefix.length
    let intPart := rest.takeWhile Char.isDigit
    if intPart = [] then none
    else
      match rest.drop intPart.length with
      | '.' :: rest2 =>
          let fracPart := rest2.takeWhile Char.isDigit
          some ((digitsToNat intPart : Rat) +
                (digitsToNat fracPart : Rat) / ((10 : Rat) ^ fracPart.length))
      | _ => some ((digitsToNat intPart : Rat))
  else none

/-- One line of `_enumerateLayerElapsedTime`'s scan: a layer marker updates the
current layer number to the matched value plus one, then an elapsed-time marker
yields a pair for the current layer. -/
def eletLineStep (st : Nat × List (Nat × Rat)) (line : Str) : Nat × List (Nat × Rat) :=
  let ln := match layerMatch line with
    | some n => n + 1
    | none => st.1
  match timeMatch line with
  | some t => (ln, st.2 ++ [(ln, t)])
  | none => (ln, st.2)

/-- One gcode clump of the scan: split the clump on newlines and scan each
line in order, threading the current layer number. -/
def eletClumpStep (st : Nat × List (Nat × Rat)) (clump : Str) : Nat × List (Nat × Rat) :=
  (splitNl clump).foldl eletLineStep st

/-- `_enumerateLayerElapsedTime`: iterate over each clump of the gcode and each
line within it, starting from layer number 0, collecting the yielded
(layer number, elapsed time) pairs in order. -/
def enumerateLayerElapsedTime (gcode : List Str) : List (Nat × Rat) :=
  (gcode.foldl eletClumpStep (0, [])).2

/-- Specification definition (from the claim's wording): the single flattened
sequence of lines of all gcode clumps. -/
def flatLines (gcode : List Str) : List Str := (gcode.map splitNl).flatten

/-- Specification definition (from the claim's wording): one plus the integer
of the most recent layer-marker line in `lines`, starting from `d` when no
layer line occurs. -/
def lastLayerFrom (d : Nat) (lines : List Str) : Nat :=
  lines.foldl (fun a l => match layerMatch l with
    | some n => n + 1
    | none => a) d

/-- Specification definition (from the claim's wording): for every line of the
flattened gcode matching the elapsed-time pattern, exactly one pair whose time
is the parsed number and whose layer number is one plus the integer of the most
recent preceding layer-marker line (0 when none precedes). -/
def eletSpec (gcode : List Str) : List (Nat × Rat) :=
  let lines := flatLines gcode
  (List.range lines.length).filterMap (fun i =>
    (timeMatch (lines.getD i [])).map (fun t => (lastLayerFrom 0 (lines.take i), t)))

/-! ## C3: `InsertGcodeAtLayer.execute` and `SwapFilament.execute` -/

/-- The line test of both scripts' `execute` loops: the line starts with
`;LAYER:` and `int()` of the remaining suffix equals the configured
`insert_layer_number`. -/
def layerLineMatches (target : Int) (line : Str) : Bool :=
  layerPrefix.isPrefixOf line &&
    (pyIntOfString (line.drop layerPrefix.length) == some target)

/-- The shared body of both scripts' `execute`: scan the clumps in order; in
the first clump whose line list holds a matching layer line, insert the
configured gcode text as one new entry immediately after the first matching
line, re-join that clump, and return with every other clump unchanged; when no
clump matches, return the gcode unchanged (after logging a warning). -/
def executeInsertCore (target : Int) (inserted : Str) : List Str → List Str
  | [] => []
  | clump :: rest =>
      let lines := splitNl clump
      match lines.findIdx? (layerLineMatches target) with
      | some i => joinNl (lines.insertIdx (i + 1) inserted) :: rest
      | none => clump :: executeInsertCore target inserted rest

/-- `InsertGcodeAtLayer.execute`'s preprocessing of the `inserted_gcode`
setting: `.replace('\\n', '\n').replace('|', '\n')`. -/
def insertGcodeTransform (s : Str) : Str :=
  pyReplace '|' [] [nlc] (pyReplace bsc ['n'] [nlc] s)

/-- `InsertGcodeAtLayer.execute` (InsertGcodeAtLayer.py:52-103), with the
`insert_layer_number` and `inserted_gcode` settings passed explicitly. -/
def InsertGcodeAtLayer_execute (target : Int) (gcodeSetting : Str) (gcode : List Str) : List Str :=
  executeInsertCore target (insertGcodeTransform gcodeSetting) gcode

/-- `SwapFilament.execute` (SwapFilament.py:52-102): the inserted text is
`f'SWAP DESC={description}\n'`. -/
def SwapFilament_execute (target : Int) (description : Str) (gcode : List Str) : List Str :=
  executeInsertCore target ("SWAP DESC=".data ++ description ++ [nlc]) gcode

/-- Specification definition (from the claim's wording): the index of the
first gcode element one of whose lines is the target layer marker. -/
def firstMatchClump (target : Int) (gcode : List Str) : Option Nat :=
  gcode.findIdx? (fun clump => (splitNl clump).any (layerLineMatches target))

/-- Specification definition (from the claim's wording): `out` arises from
`gcode` by inserting `inserted` as exactly one new line-list entry immediately
after the first line carrying the target layer marker, modifying only the
single element containing that line; with no such line, `out` equals `gcode`
element-wise. -/
def insertionSpec (target : Int) (inserted : Str) (gcode out : List Str) : Prop :=
  match firstMatchClump target gcode with
  | none => out = gcode
  | some j =>
      ∃ i, (splitNl (gcode.getD j [])).findIdx? (layerLineMatches target) = some i ∧
        out = gcode.set j (joinNl ((splitNl (gcode.getD j [])).insertIdx (i + 1) inserted))

/-! ## C4, C6, C7 (GcodeInjector side): the post-processing script list

A post-processing script is modelled by what `_addInjection`,
`_removeInjection` and `activeInjectionsModel` read from it:
`getSettingValueByKey('layer_number_key')` followed by the lookup of that key
is `layerNumber` (`some n` exactly when the script is an injection script
storing layer `n`; the layer settings of the shipped injection scripts are of
type `int`), and `getSettingData()['name']` is `scriptName`. -/

structure PScript where
  layerNumber : Option Int
  scriptName : Str
deriving DecidableEq

/-- `_addInjection` (GcodeInjector.py:424-473), modelled on the script list:
`newScript` is the freshly built injection script whose stored layer number is
the injected layer.  The first injection script already storing that layer is
replaced in place (then the loop breaks); the `for`/`else` appends when no
script matches. -/
def addInjection (newScript : PScript) (layerNumber : Int) : List PScript → List PScript
  | [] => [newScript]
  | s :: rest =>
      if s.layerNumber = some layerNumber then newScript :: rest
      else s :: addInjection newScript layerNumber rest

/-- `_removeInjection` (GcodeInjector.py:477-501), modelled on the script
list: pop the first injection script storing the given layer number and
return; leave the list unchanged when none matches. -/
def removeInjection (layerNumber : Int) : List PScript → List PScript
  | [] => []
  | s :: rest =>
      if s.layerNumber = some layerNumber then rest
      else s :: removeInjection layerNumber rest

/-- The stored layer numbers of the injection scripts in the list, in order. -/
def injectionLayers (l : List PScript) : List Int :=
  l.filterMap (fun s => s.layerNumber)

/-- Insert into a list sorted ascending by `key`, after entries of equal key
(the stable placement Python's `sorted` gives equal keys). -/
def insertSortedBy (key : α → Int) (e : α) : List α → List α
  | [] => [e]
  | b :: rest => if key b ≤ key e then b :: insertSortedBy key e rest else e :: b :: rest

/-- Models Python `sorted(l, key=...)` (a stable ascending sort) as a stable
insertion sort. -/
def pySortedBy (key : α → Int) (l : List α) : List α :=
  l.foldl (fun acc e => insertSortedBy key e acc) []

/-- One entry of `activeInjectionsModel`: the dictionary
`{'layer_number': ..., 'script_name': ...}`. -/
structure InjEntry where
  layerNumber : Int
  scriptName : Str
deriving DecidableEq

/-- `activeInjectionsModel` (GcodeInjector.py:256-282): one entry per
injection script of the post-processing script list (`injectionIndexes`
filters to scripts whose `layer_number_key` lookup is not `None`), sorted
ascending by layer number. -/
def activeInjectionsModel (scripts : List PScript) : List InjEntry :=
  pySortedBy (fun e => e.layerNumber)
    (scripts.filterMap (fun s => s.layerNumber.map (fun n => InjEntry.mk n s.scriptName)))

/-! ## C7 (PostProcessingGui side): `activeScriptsModel` -/

/-- A post-processing script as read by `activeScriptsModel`:
`getSettingData()['key']` and `getSettingValueByKey` over its settings (values
modelled as the strings `int()` is applied to). -/
structure GScript where
  key : Str
  settings : List (Str × Str)
deriving DecidableEq

/-- One `_script_table` entry of `PostProcessingGui` (built from a JSON file):
the script key and name, the critical settings (a missing
`critical_settings` entry behaves as the empty dictionary), and the name of
the layer-number setting. -/
structure TableEntry where
  scriptKey : Str
  scriptName : Str
  criticalSettings : List (Str × Str)
  layerNumberSetting : Str
deriving DecidableEq

/-- One entry of `activeScriptsModel`. -/
structure ActiveEntry where
  scriptKey : Str
  scriptName : Str
  layerNumber : Int
  scriptIndex : Nat
deriving DecidableEq

/-- `getSettingValueByKey` on the modelled script. -/
def lookupSetting (s : GScript) (k : Str) : Option Str :=
  (s.settings.find? (fun kv => kv.1 == k)).map (fun kv => kv.2)

/-- The critical-settings check of `activeScriptsModel`: every critical
setting must be present with the required value (a missing setting counts as a
mismatch). -/
def criticalSettingsMatch (s : GScript) (cs : List (Str × Str)) : Bool :=
  cs.all (fun kv => lookupSetting s kv.1 == some kv.2)

/-- The entries `activeScriptsModel`'s inner loop contributes for the script at
`idx`: one per table entry with matching key and critical settings whose
layer-number setting parses as an integer (scripts whose layer value fails
`int()` are skipped). -/
def entriesForScript (table : List TableEntry) (idx : Nat) (s : GScript) : List ActiveEntry :=
  table.filterMap (fun td =>
    if td.scriptKey = s.key ∧ criticalSettingsMatch s td.criticalSettings then
      (pyIntOfString ((lookupSetting s td.layerNumberSetting).getD [])).map
        (fun n => ActiveEntry.mk td.scriptKey td.scriptName n idx)
    else none)

/-- `activeScriptsModel` (PostProcessingGui.py:230-294): collect the entries of
each post-processing script in list order, then sort ascending by layer
number. -/
def activeScriptsModel (table : List TableEntry) (scripts : List GScript) : List ActiveEntry :=
  pySortedBy (fun e => e.layerNumber)
    ((scripts.enum.map (fun p => entriesForScript table p.1 p.2)).flatten)

/-! ## C8: `_initializeInjectionScripts` and `availableInjectionNames` -/

/-- `_initializeInjectionScripts` (GcodeInjector.py:651-662), modelled on the
key list of the `_injection_scripts` dictionary: for each script name loaded by
the host's post-processing plugin, load it exactly when a JSON overlay of the
same name ships with this plugin (dictionary insertion keeps an existing key's
position). -/
def initializeInjectionScripts (loadedScripts overlayIds existing : List Str) : List Str :=
  loadedScripts.foldl
    (fun acc nm =>
      if nm ∈ overlayIds then (if nm ∈ acc then acc else acc ++ [nm]) else acc)
    existing

/-- `availableInjectionNames` (GcodeInjector.py:178-184): the keys of
`_injection_scripts`. -/
def availableInjectionNames (injectionScripts : List Str) : List Str := injectionScripts

/-! ## C9: defensive property getters -/

/-- `showInjectionPanel` (GcodeInjector.py:154-162): compare the active view's
name against `'SimulationView'`; the `AttributeError` of a missing active view
(or missing attribute) is caught and yields `False`.  The failed attribute
lookup is modelled as `none`. -/
def showInjectionPanel (activeViewName : Option Str) : Bool :=
  match activeViewName with
  | some nm => nm = "SimulationView".data
  | none => false

/-- `canAddInjections` (GcodeInjector.py:166-174): the active view's
`getActivity()`, with the `AttributeError` of a missing view modelled as
`none` and caught to `False`. -/
def canAddInjections (activeViewActivity : Option Bool) : Bool :=
  match activeViewActivity with
  | some b => b
  | none => false

/-- Models Python list indexing `l[i]`, including negative indices; `none`
exactly where Python raises `IndexError`. -/
def pyGetItem (l : List α) (i : Int) : Option α :=
  if 0 ≤ i then l.get? i.toNat
  else if -(l.length : Int) ≤ i then l.get? (l.length - (-i).toNat)
  else none

/-- `selectedInjectionName` (GcodeInjector.py:215-224): index the available
injection names with the selected index, catching `IndexError` to the empty
string. -/
def selectedInjectionName (names : List Str) (idx : Int) : Str :=
  match pyGetItem names idx with
  | some nm => nm
  | none => []

/-! ## C5: `recursiveDictOverlay` (RecursiveDictOverlay.py:1-16)

JSON-like Python values: primitive (non-dictionary) values carry an opaque
string payload; dictionaries are ordered key/value pair lists (both the script
setting data and the overlay are loaded with `object_pairs_hook =
collections.OrderedDict`, so `isinstance(value, type(original))` on two values
of this model holds exactly when both are dictionaries or both are
primitives). -/

inductive PyVal where
  | prim : Str → PyVal
  | dict : List (Str × PyVal) → PyVal

instance : Inhabited PyVal := ⟨PyVal.dict []⟩

/-- Python `d[k] = v` on an ordered dictionary: update in place when the key
exists, append otherwise. -/
def dictSet (d : List (Str × PyVal)) (k : Str) (v : PyVal) : List (Str × PyVal) :=
  if d.any (fun kv => kv.1 = k) then
    d.map (fun kv => if kv.1 = k then (k, v) else kv)
  else d ++ [(k, v)]

/-- Python `d.get(k)` on an ordered dictionary. -/
def dictGet (d : List (Str × PyVal)) (k : Str) : Option PyVal :=
  (d.find? (fun kv => kv.1 = k)).map (fun kv => kv.2)

mutual

/-- `recursiveDictOverlay(original, overlay)`: iterate over the overlay's
items; a dictionary value is merged recursively into `original.get(key, {})`
and stored back, any other value is stored directly.  `Except.error ()` marks
the places where the Python code raises: iterating a non-dictionary overlay
(`AttributeError`), and item assignment or `.get` on a non-dictionary
`original` while overlay items remain (`TypeError`/`AttributeError`). -/
def recursiveDictOverlay : PyVal → PyVal → Except Unit PyVal
  | _, PyVal.prim _ => Except.error ()
  | original, PyVal.dict items => rdoGo original items

/-- The item loop of `recursiveDictOverlay` over the remaining overlay
items. -/
def rdoGo : PyVal → List (Str × PyVal) → Except Unit PyVal
  | orig, [] => Except.ok orig
  | PyVal.prim _, _ :: _ => Except.error ()
  | PyVal.dict d, (k, v) :: rest =>
      match v with
      | PyVal.dict sub =>
          match recursiveDictOverlay ((dictGet d k).getD (PyVal.dict [])) (PyVal.dict sub) with
          | Except.ok merged => rdoGo (PyVal.dict (dictSet d k merged)) rest
          | Except.error e => Except.error e
      | PyVal.prim p => rdoGo (PyVal.dict (dictSet d k (PyVal.prim p))) rest

end

/-! ## Foundation lemmas on the embedded string operations -/

theorem isPrefixOf_cons_cons (a b : Char) (as bs : List Char) :
    (a :: as).isPrefixOf (b :: bs) = (a == b && as.isPrefixOf bs) := rfl

theorem nil_isPrefixOf (l : List Char) : ([] : List Char).isPrefixOf l = true := by
  cases l <;> rfl

theorem pyReplaceF_fuelIrrel (p : Char) (ps rep : Str) :
    ∀ f1 f2 s, s.length ≤ f1 → s.length ≤ f2 →
      pyReplaceF p ps rep f1 s = pyReplaceF p ps rep f2 s := by
  intro f1
  induction f1 with
  | zero =>
      intro f2 s h1 h2
      cases s with
      | nil => cases f2 <;> rfl
      | cons c cs => simp at h1
  | succ f ih =>
      intro f2 s h1 h2
      cases s with
      | nil => cases f2 <;> rfl
      | cons c cs =>
          cases f2 with
          | zero => simp at h2
          | succ f2 =>
              simp only [pyReplaceF]
              by_cases hp : (p :: ps).isPrefixOf (c :: cs)
              · simp only [hp, if_true]
                have hd : (cs.drop ps.length).length ≤ f := by
                  simp only [List.length_drop]
                  simp only [List.length_cons] at h1
                  omega
                have hd2 : (cs.drop ps.length).length ≤ f2 := by
                  simp only [List.length_drop]
                  simp only [List.length_cons] at h2
                  omega
                rw [ih f2 _ hd hd2]
              · rw [Bool.not_eq_true] at hp
                simp only [hp, Bool.false_eq_true, if_false]
                have hc : cs.length ≤ f := by
                  simp only [List.length_cons] at h1
                  omega
                have hc2 : cs.length ≤ f2 := by
                  simp only [List.length_cons] at h2
                  omega
                rw [ih f2 cs hc hc2]

theorem pyReplace_nil (p : Char) (ps rep : Str) : pyReplace p ps rep [] = [] := rfl

theorem pyReplace_cons (p : Char) (ps rep : Str) (c : Char) (cs : Str) :
    pyReplace p ps rep (c :: cs) =
      if (p :: ps).isPrefixOf (c :: cs) then
        rep ++ pyReplace p ps rep (cs.drop ps.length)
      else c :: pyReplace p ps rep cs := by
  show pyReplaceF p ps rep (c :: cs).length (c :: cs) = _
  simp only [List.length_cons, pyReplaceF]
  by_cases hp : (p :: ps).isPrefixOf (c :: cs)
  · simp only [hp, if_true]
    rw [pyReplaceF_fuelIrrel p ps rep cs.length (cs.drop ps.length).length _
      (by simp only [List.length_drop]; omega) (le_refl _)]
    rfl
  · rw [Bool.not_eq_true] at hp
    simp only [hp, Bool.false_eq_true, if_false]
    rfl

theorem pyReplace_eq_self (p : Char) (ps rep : Str) (s : Str) (hp : p ∉ s) :
    pyReplace p ps rep s = s := by
  induction s with
  | nil => rfl
  | cons c cs ih =>
      rw [pyReplace_cons]
      have hc : (p == c) = false := by
        simp only [beq_eq_false_iff_ne, ne_eq]
        intro h
        exact hp (h ▸ List.mem_cons_self c cs)
      rw [isPrefixOf_cons_cons]
      simp only [hc, Bool.false_and, Bool.false_eq_true, if_false, List.cons.injEq, true_and]
      exact ih (fun h => hp (List.mem_cons_of_mem c h))

theorem escNl_not_mem_nl (s : Str) :
    nlc ∉ pyReplace nlc [] [bsc, bsc, bsc, 'n'] s := by
  induction s with
  | nil => simp [pyReplace_nil]
  | cons c cs ih =>
      rw [pyReplace_cons]
      by_cases hc : c = nlc
      · subst hc
        have hpre : ([nlc]).isPrefixOf (nlc :: cs) = true := by
          rw [isPrefixOf_cons_cons]
          cases cs <;> simp
        simp only [hpre, if_true, List.drop_zero, List.mem_append]
        intro h
        rcases h with h | h
        · simp only [List.mem_cons, List.mem_singleton] at h
          rcases h with h | h | h | h <;> simp [nlc, bsc] at h
        · exact ih h
      · have hpre : ([nlc]).isPrefixOf (c :: cs) = false := by
          rw [isPrefixOf_cons_cons]
          have : (nlc == c) = false := by
            simp only [beq_eq_false_iff_ne, ne_eq]
            exact fun h => hc h.symm
          simp [this]
        simp only [hpre, Bool.false_eq_true, if_false, List.mem_cons]
        intro h
        rcases h with h | h
        · exact hc h.symm
        · exact ih h

theorem escNl_ne_nil (c : Char) (cs : Str) :
    pyReplace nlc [] [bsc, bsc, bsc, 'n'] (c :: cs) ≠ [] := by
  rw [pyReplace_cons]
  by_cases hp : ([nlc]).isPrefixOf (c :: cs)
  · simp [hp]
  · simp [hp]

theorem unescNl_escNl (s : Str) (hs : bsc ∉ s) :
    pyReplace bsc [bsc, bsc, 'n'] [nlc] (pyReplace nlc [] [bsc, bsc, bsc, 'n'] s) = s := by
  induction s with
  | nil => rfl
  | cons c cs ih =>
      have hcs : bsc ∉ cs := fun h => hs (List.mem_cons_of_mem c h)
      have hc : c ≠ bsc := fun h => hs (h ▸ List.mem_cons_self c cs)
      rw [pyReplace_cons]
      by_cases hnl : c = nlc
      · subst hnl
        have hpre : ([nlc]).isPrefixOf (nlc :: cs) = true := by
          rw [isPrefixOf_cons_cons]
          simp [nil_isPrefixOf]
        simp only [hpre, if_true, List.length_nil, List.drop_zero]
        show pyReplace bsc [bsc, bsc, 'n'] [nlc]
          (bsc :: bsc :: bsc :: 'n' :: pyReplace nlc [] [bsc, bsc, bsc, 'n'] cs) = nlc :: cs
        rw [pyReplace_cons]
        have hpre2 : ((bsc :: [bsc, bsc, 'n']).isPrefixOf
            (bsc :: bsc :: bsc :: 'n' :: pyReplace nlc [] [bsc, bsc, bsc, 'n'] cs)) = true := by
          simp only [isPrefixOf_cons_cons, nil_isPrefixOf, beq_self_eq_true, Bool.true_and]
        simp only [hpre2, if_true]
        have hdrop : (bsc :: bsc :: 'n' :: pyReplace nlc [] [bsc, bsc, bsc, 'n'] cs).drop
            ([bsc, bsc, 'n'] : Str).length = pyReplace nlc [] [bsc, bsc, bsc, 'n'] cs := rfl
        rw [hdrop, ih hcs]
        rfl
      · have hpre : ([nlc]).isPrefixOf (c :: cs) = false := by
          rw [isPrefixOf_cons_cons]
          have heq : (nlc == c) = false := by
            simp only [beq_eq_false_iff_ne, ne_eq]
            exact fun h => hnl h.symm
          simp [heq]
        simp only [hpre, Bool.false_eq_true, if_false]
        rw [pyReplace_cons]
        have hpre2 : ((bsc :: [bsc, bsc, 'n']).isPrefixOf
            (c :: pyReplace nlc [] [bsc, bsc, bsc, 'n'] cs)) = false := by
          rw [isPrefixOf_cons_cons]
          have heq : (bsc == c) = false := by
            simp only [beq_eq_false_iff_ne, ne_eq]
            exact fun h => hc h.symm
          simp [heq]
        simp only [hpre2, Bool.false_eq_true, if_false, List.cons.injEq, true_and]
        exact ih hcs

/-- The full escape/un-escape round trip on a backslash-free block. -/
theorem unescape_escape (s : Str) (hs : bsc ∉ s) :
    unescapeSettings (escapeSettings s) = s := by
  unfold escapeSettings unescapeSettings
  rw [pyReplace_eq_self bsc [bsc] [bsc, bsc, bsc, bsc] s hs]
  rw [unescNl_escNl s hs]
  exact pyReplace_eq_self bsc [bsc, bsc, bsc] [bsc, bsc] s hs

theorem splitNl_ne_nil (s : Str) : splitNl s ≠ [] := by
  induction s with
  | nil => simp [splitNl]
  | cons c cs ih =>
      simp only [splitNl]
      by_cases hc : c = nlc
      · simp [hc]
      · simp only [hc, if_false]
        cases h : splitNl cs <;> simp

theorem splitNl_no_nl (s : Str) (hs : nlc ∉ s) : splitNl s = [s] := by
  induction s with
  | nil => rfl
  | cons c cs ih =>
      have hc : c ≠ nlc := fun h => hs (h ▸ List.mem_cons_self c cs)
      simp only [splitNl, hc, if_false]
      rw [ih (fun h => hs (List.mem_cons_of_mem c h))]

theorem splitNl_append (b s : Str) (hb : nlc ∉ b) :
    splitNl (b ++ nlc :: s) = b :: splitNl s := by
  induction b with
  | nil => simp [splitNl]
  | cons c b ih =>
      have hc : c ≠ nlc := fun h => hb (h ▸ List.mem_cons_self c b)
      have hb2 : nlc ∉ b := fun h => hb (List.mem_cons_of_mem c h)
      simp only [List.cons_append, splitNl, hc, if_false]
      rw [show b.append (nlc :: s) = b ++ nlc :: s from rfl, ih hb2]

theorem splitNl_joinNl (blocks : List Str) (hb : ∀ b ∈ blocks, nlc ∉ b)
    (hne : blocks ≠ []) : splitNl (joinNl blocks) = blocks := by
  induction blocks with
  | nil => cases hne rfl
  | cons b rest ih =>
      cases rest with
      | nil =>
          simp only [joinNl]
          exact splitNl_no_nl b (hb b (List.mem_cons_self b []))
      | cons b2 rest2 =>
          show splitNl (b ++ nlc :: joinNl (b2 :: rest2)) = b :: b2 :: rest2
          rw [splitNl_append _ _ (hb b (List.mem_cons_self b (b2 :: rest2)))]
          rw [ih (fun x hx => hb x (List.mem_cons_of_mem b hx)) (by simp)]

theorem identChar_not_ws (c : Char) (h : isIdentChar c = true) : isPyWS c = false := by
  by_contra hws
  rw [Bool.not_eq_false] at hws
  unfold isPyWS at hws
  simp only [Bool.or_eq_true, beq_iff_eq] at hws
  rcases hws with ((((h1 | h1) | h1) | h1) | h1) | h1 <;>
    (subst h1; exact absurd h (by decide))

theorem dropWhile_eq_self_of_all (p : Char → Bool) (l : Str)
    (h : ∀ c ∈ l, p c = false) : l.dropWhile p = l := by
  cases l with
  | nil => rfl
  | cons a t => simp [List.dropWhile_cons, h a (List.mem_cons_self a t)]

theorem pyStrip_token_space (k : Str) (hk : k ≠ []) (hkc : ∀ c ∈ k, isIdentChar c) :
    pyStrip (k ++ [' ']) = k := by
  unfold pyStrip pyStripLeft
  have h1 : (k ++ [' ']).dropWhile isPyWS = k ++ [' '] := by
    cases k with
    | nil => cases hk rfl
    | cons a t =>
        simp [List.dropWhile_cons,
          identChar_not_ws a (hkc a (List.mem_cons_self a t))]
  rw [h1]
  have h2 : (k ++ [' ']).reverse = ' ' :: k.reverse := by
    simp
  rw [h2]
  have h3 : (' ' :: k.reverse).dropWhile isPyWS = k.reverse.dropWhile isPyWS := by
    simp [List.dropWhile_cons, isPyWS]
  rw [h3]
  rw [dropWhile_eq_self_of_all isPyWS k.reverse
    (fun c hc => identChar_not_ws c (hkc c (List.mem_reverse.mp hc)))]
  simp

theorem pyStrip_space_value (v : Str) (hv : pyStrip v = v) :
    pyStrip (' ' :: v) = v := by
  unfold pyStrip pyStripLeft
  have h1 : (' ' :: v).dropWhile isPyWS = v.dropWhile isPyWS := by
    simp [List.dropWhile_cons, isPyWS]
  rw [h1]
  exact hv

theorem isBlankLine_token_head (k rest : Str) (hk : k ≠ [])
    (hkc : ∀ c ∈ k, isIdentChar c) : isBlankLine (k ++ rest) = false := by
  cases k with
  | nil => cases hk rfl
  | cons a t =>
      simp only [isBlankLine, List.cons_append, List.all_cons,
        identChar_not_ws a (hkc a (List.mem_cons_self a t)), Bool.false_and]

theorem identChar_ne_bsc (c : Char) (h : isIdentChar c = true) : c ≠ bsc :=
  fun he => absurd (he ▸ h) (by decide)

theorem identChar_ne_nlc (c : Char) (h : isIdentChar c = true) : c ≠ nlc :=
  fun he => absurd (he ▸ h) (by decide)

theorem identChar_ne_lbracket (c : Char) (h : isIdentChar c = true) : c ≠ '[' :=
  fun he => absurd (he ▸ h) (by decide)

theorem identChar_not_delim (c : Char) (h : isIdentChar c = true) :
    delimChar c = false := by
  by_contra hd
  rw [Bool.not_eq_false] at hd
  unfold delimChar at hd
  simp only [Bool.or_eq_true, beq_iff_eq] at hd
  rcases hd with h1 | h1 <;> (subst h1; exact absurd h (by decide))

theorem token_not_mem_nlc (k : Str) (hkc : ∀ c ∈ k, isIdentChar c) : nlc ∉ k :=
  fun hmem => absurd (hkc nlc hmem) (by decide)

theorem token_not_mem_bsc (k : Str) (hkc : ∀ c ∈ k, isIdentChar c) : bsc ∉ k :=
  fun hmem => absurd (hkc bsc hmem) (by decide)

/-- Under the well-formedness conditions the serialized section text holds no
backslash, so the backslash-escape steps are the identity on it. -/
theorem serializeSection_shape (nm : Str) (kvs : List (Str × Str)) :
    serializeSection nm kvs =
      ('[' :: nm ++ [']']) ++
        nlc :: ((kvs.map (fun kv => optionLine kv.1 kv.2)).flatten ++ [nlc]) := by
  simp [serializeSection, List.append_assoc]

theorem serializeSection_no_bsc (nm : Str) (kvs : List (Str × Str))
    (hwf : wfSection nm kvs) : bsc ∉ serializeSection nm kvs := by
  intro hmem
  rcases hwf with ⟨⟨hnm, hnmc⟩, hkvs⟩
  rw [serializeSection_shape] at hmem
  rcases List.mem_append.mp hmem with h | h
  · rcases List.mem_cons.mp h with h | h
    · exact absurd h (by decide)
    · rcases List.mem_append.mp h with h | h
      · exact absurd (hnmc bsc h) (by decide)
      · exact absurd (List.mem_singleton.mp h) (by decide)
  · rcases List.mem_cons.mp h with h | h
    · exact absurd h (by decide)
    · rcases List.mem_append.mp h with h | h
      · rcases List.mem_flatten.mp h with ⟨line, hline, hbs⟩
        rcases List.mem_map.mp hline with ⟨kv, hkv, rfl⟩
        rcases hkvs kv hkv with ⟨⟨hk, hkc⟩, hv⟩
        rcases List.mem_append.mp hbs with h2 | h2
        · rcases List.mem_append.mp h2 with h3 | h3
          · exact absurd (hkc bsc h3) (by decide)
          · rcases List.mem_cons.mp h3 with h4 | h4
            · exact absurd h4 (by decide)
            rcases List.mem_cons.mp h4 with h5 | h5
            · exact absurd h5 (by decide)
            rcases List.mem_cons.mp h5 with h6 | h6
            · exact absurd h6 (by decide)
            rw [show encodeValue kv.2 = kv.2 from
              pyReplace_eq_self nlc [] [nlc, '\t'] kv.2 hv.2.1] at h6
            exact hv.1 h6
        · exact absurd (List.mem_singleton.mp h2) (by decide)
      · exact absurd (List.mem_singleton.mp h) (by decide)

/-- The lines of the serialized option block, under well-formedness: one
`key = value` line per setting followed by the blank line and the split
artifact of the trailing newline. -/
theorem splitNl_optionBlock (kvs : List (Str × Str))
    (hkvs : ∀ kv ∈ kvs, wfToken kv.1 ∧ wfValue kv.2) :
    splitNl ((kvs.map (fun kv => optionLine kv.1 kv.2)).flatten ++ [nlc]) =
      kvs.map (fun kv => kv.1 ++ ' ' :: '=' :: ' ' :: kv.2) ++ [[], []] := by
  induction kvs with
  | nil =>
      show splitNl [nlc] = [[], []]
      rfl
  | cons kv rest ih =>
      rcases hkvs kv (List.mem_cons_self kv rest) with ⟨⟨hk, hkc⟩, hv⟩
      have henc : encodeValue kv.2 = kv.2 :=
        pyReplace_eq_self nlc [] [nlc, '\t'] kv.2 hv.2.1
      have hcore : nlc ∉ kv.1 ++ ' ' :: '=' :: ' ' :: kv.2 := by
        intro h
        rcases List.mem_append.mp h with h | h
        · exact token_not_mem_nlc kv.1 hkc h
        · rcases List.mem_cons.mp h with h | h
          · exact absurd h (by decide)
          rcases List.mem_cons.mp h with h | h
          · exact absurd h (by decide)
          rcases List.mem_cons.mp h with h | h
          · exact absurd h (by decide)
          exact hv.2.1 h
      have hshape : (((kv :: rest).map (fun kv => optionLine kv.1 kv.2)).flatten ++ [nlc]) =
          (kv.1 ++ ' ' :: '=' :: ' ' :: kv.2) ++
            nlc :: ((rest.map (fun kv => optionLine kv.1 kv.2)).flatten ++ [nlc]) := by
        simp only [List.map_cons, List.flatten_cons, optionLine, henc, List.append_assoc,
          List.cons_append, List.nil_append]
      rw [hshape, splitNl_append _ _ hcore,
        ih (fun x hx => hkvs x (List.mem_cons_of_mem kv hx))]
      rfl

theorem splitFirstDelim_optLine (k v : Str) (hkc : ∀ c ∈ k, isIdentChar c) :
    splitFirstDelim (k ++ ' ' :: '=' :: ' ' :: v) = some (k ++ [' '], ' ' :: v) := by
  induction k with
  | nil =>
      show splitFirstDelim (' ' :: '=' :: ' ' :: v) = some ([' '], ' ' :: v)
      simp [splitFirstDelim, delimChar]
  | cons c k ih =>
      have hc : delimChar c = false :=
        identChar_not_delim c (hkc c (List.mem_cons_self c k))
      simp only [List.cons_append, splitFirstDelim, hc, Bool.false_eq_true, if_false]
      rw [show k.append (' ' :: '=' :: ' ' :: v) = k ++ ' ' :: '=' :: ' ' :: v from rfl]
      rw [ih (fun x hx => hkc x (List.mem_cons_of_mem c hx))]
      rfl

theorem headerName_optLine (k v : Str) (hk : k ≠ []) (hkc : ∀ c ∈ k, isIdentChar c) :
    headerName (k ++ ' ' :: '=' :: ' ' :: v) = none := by
  cases k with
  | nil => cases hk rfl
  | cons a t =>
      have ha : a ≠ '[' := identChar_ne_lbracket a (hkc a (List.mem_cons_self a t))
      simp [headerName, ha]

theorem headerName_header (nm : Str) (hnm : nm ≠ []) :
    headerName ('[' :: nm ++ [']']) = some nm := by
  show headerName ('[' :: (nm ++ [']'])) = some nm
  have h1 : (nm ++ [']']).getLast? = some ']' := by simp [List.getLast?_concat]
  have h2 : (nm ++ [']']).dropLast = nm := by simp [List.dropLast_concat]
  simp [headerName, h1, h2, hnm]

theorem isBlankLine_header (nm : Str) : isBlankLine ('[' :: nm ++ [']']) = false := by
  show isBlankLine ('[' :: (nm ++ [']'])) = false
  have h : isPyWS '[' = false := by decide
  simp [isBlankLine, List.all_cons, h]

/-- Parsing the option lines of one section accumulates exactly the section's
settings. -/
theorem parseConfigLines_optLines (kvs : List (Str × Str)) (nm : Str)
    (hkvs : ∀ kv ∈ kvs, wfToken kv.1 ∧ wfValue kv.2) :
    ∀ done, parseConfigLines
        (kvs.map (fun kv => kv.1 ++ ' ' :: '=' :: ' ' :: kv.2) ++ [[], []])
        [(nm, done)] = [(nm, done ++ kvs)] := by
  induction kvs with
  | nil =>
      intro done
      show parseConfigLines [[], []] [(nm, done)] = [(nm, done ++ [])]
      simp [parseConfigLines, isBlankLine]
  | cons kv rest ih =>
      intro done
      rcases hkvs kv (List.mem_cons_self kv rest) with ⟨⟨hk, hkc⟩, hv⟩
      simp only [List.map_cons, List.cons_append, parseConfigLines]
      rw [isBlankLine_token_head kv.1 _ hk hkc]
      simp only [Bool.false_eq_true, if_false]
      rw [headerName_optLine kv.1 kv.2 hk hkc]
      rw [splitFirstDelim_optLine kv.1 kv.2 hkc]
      simp only
      rw [pyStrip_token_space kv.1 hk hkc, pyStrip_space_value kv.2 hv.2.2]
      show parseConfigLines _ [(nm, done ++ [kv])] = _
      simp only [List.append_eq]
      rw [ih (fun x hx => hkvs x (List.mem_cons_of_mem kv hx)) (done ++ [kv])]
      simp

/-- Parsing the serialized text of one well-formed section recovers exactly
that section. -/
theorem parseConfig_serializeSection (nm : Str) (kvs : List (Str × Str))
    (hwf : wfSection nm kvs) : parseConfig (serializeSection nm kvs) = [(nm, kvs)] := by
  rcases hwf with ⟨⟨hnm, hnmc⟩, hkvs⟩
  unfold parseConfig
  rw [serializeSection_shape]
  have hhdr : nlc ∉ '[' :: nm ++ [']'] := by
    intro h
    rcases List.mem_cons.mp h with h | h
    · exact absurd h (by decide)
    · rcases List.mem_append.mp h with h | h
      · exact token_not_mem_nlc nm hnmc h
      · exact absurd (List.mem_singleton.mp h) (by decide)
  rw [splitNl_append _ _ hhdr, splitNl_optionBlock kvs hkvs]
  simp only [parseConfigLines, isBlankLine_header nm, Bool.false_eq_true, if_false]
  rw [headerName_header nm hnm]
  show parseConfigLines _ [(nm, [])] = [(nm, kvs)]
  rw [parseConfigLines_optLines kvs nm hkvs []]
  simp

theorem escapeSettings_eq_escNl (s : Str) (hs : bsc ∉ s) :
    escapeSettings s = pyReplace nlc [] [bsc, bsc, bsc, 'n'] s := by
  unfold escapeSettings
  rw [pyReplace_eq_self bsc [bsc] [bsc, bsc, bsc, bsc] s hs]

theorem foldl_append_flatten (g : α → List β) (l : List α) (acc : List β) :
    l.foldl (fun a p => a ++ g p) acc = acc ++ (l.map g).flatten := by
  induction l generalizing acc with
  | nil => simp
  | cons x xs ih => simp [ih, List.append_assoc]

theorem flatten_map_singleton (l : List α) : (l.map (fun x => [x])).flatten = l := by
  induction l with
  | nil => rfl
  | cons x xs ih => simp [ih]

/-- C1 (amended): for well-formed settings — script names and setting keys
non-empty and alphanumeric, setting values free of backslashes and newlines
and unchanged by whitespace stripping — with every script name recognized and
not reserved, `_restoreInjectionScripts` recovers from the blob written by
`saveInjectionScriptSettings` exactly the original setting values of every
script, in order. -/
theorem saveRestore_roundTrip (recognized : List Str)
    (scripts : List (Str × List (Str × Str)))
    (h : ∀ sc ∈ scripts, wfSection sc.1 sc.2 ∧ sc.1 ∈ recognized ∧
      sc.1 ∉ reservedSectionNames) :
    restoreInjectionScripts recognized (saveInjectionScriptSettings scripts) = scripts := by
  cases scripts with
  | nil => rfl
  | cons sc0 rest =>
      have hb : ∀ b ∈ (sc0 :: rest).map (fun sc => escapeSettings (serializeSection sc.1 sc.2)),
          nlc ∉ b ∧ b ≠ [] := by
        intro b hbm
        rcases List.mem_map.mp hbm with ⟨sc, hsc, rfl⟩
        have hnb := serializeSection_no_bsc sc.1 sc.2 (h sc hsc).1
        rw [escapeSettings_eq_escNl _ hnb]
        refine ⟨escNl_not_mem_nl _, ?_⟩
        rw [serializeSection_shape]
        exact escNl_ne_nil _ _
      unfold restoreInjectionScripts saveInjectionScriptSettings
      rw [splitNl_joinNl _ (fun b hbm => (hb b hbm).1) (by simp)]
      rw [List.filter_eq_self.mpr (fun b hbm => by
        simpa using (hb b hbm).2)]
      rw [foldl_append_flatten]
      rw [List.map_map]
      have hper : ∀ sc ∈ sc0 :: rest,
          ((fun piece => (parseConfig (unescapeSettings piece)).filterMap (fun sec =>
            if sec.1 ∈ reservedSectionNames then none
            else if sec.1 ∈ recognized then some sec
            else none)) ∘ fun sc => escapeSettings (serializeSection sc.1 sc.2)) sc = [sc] := by
        intro sc hsc
        rcases h sc hsc with ⟨hwf, hrec, hres⟩
        have hnb := serializeSection_no_bsc sc.1 sc.2 hwf
        show (parseConfig (unescapeSettings (escapeSettings (serializeSection sc.1 sc.2)))).filterMap _ = [sc]
        rw [unescape_escape _ hnb, parseConfig_serializeSection sc.1 sc.2 hwf]
        simp [hres, hrec]
      rw [List.map_congr_left hper]
      rw [flatten_map_singleton]
      simp

/-- C1 counterexample: for the recognized script `S` with the single setting
`k` whose value is the four characters backslash-backslash-backslash-`n`, the
save/restore round trip does not restore the original value (it yields two
backslashes), because the escape scheme is not prefix-free on strings that
already contain backslashes. -/
theorem saveRestore_counterexample :
    restoreInjectionScripts [['S']]
        (saveInjectionScriptSettings [(['S'], [(['k'], [bsc, bsc, bsc, 'n'])])]) ≠
      [(['S'], [(['k'], [bsc, bsc, bsc, 'n'])])] := by
  decide

/-- C1 witness: the amended round trip at a concrete well-formed input. -/
theorem saveRestore_roundTrip_witness :
    (∀ sc ∈ [((['S'], [(['k'], ['v'])]) : Str × List (Str × Str))],
      wfSection sc.1 sc.2 ∧ sc.1 ∈ [['S']] ∧ sc.1 ∉ reservedSectionNames) ∧
    restoreInjectionScripts [['S']]
        (saveInjectionScriptSettings [(['S'], [(['k'], ['v'])])]) =
      [(['S'], [(['k'], ['v'])])] :=
  ⟨by decide, saveRestore_roundTrip [['S']] [(['S'], [(['k'], ['v'])])] (by decide)⟩

/-! ## C8: available injection names -/

theorem initializeInjectionScripts_mem (overlayIds : List Str) :
    ∀ (loaded : List Str) (acc : List Str) (nm : Str),
      nm ∈ loaded.foldl
        (fun acc nm => if nm ∈ overlayIds then (if nm ∈ acc then acc else acc ++ [nm]) else acc)
        acc →
      nm ∈ acc ∨ (nm ∈ loaded ∧ nm ∈ overlayIds) := by
  intro loaded
  induction loaded with
  | nil => intro acc nm h; exact Or.inl h
  | cons x xs ih =>
      intro acc nm h
      simp only [List.foldl_cons] at h
      rcases ih _ nm h with hacc | ⟨hxs, hov⟩
      · by_cases hov : x ∈ overlayIds
        · simp only [hov, if_true] at hacc
          by_cases hx : x ∈ acc
          · simp only [hx, if_true] at hacc
            exact Or.inl hacc
          · simp only [hx, if_false] at hacc
            rcases List.mem_append.mp hacc with h2 | h2
            · exact Or.inl h2
            · rw [List.mem_singleton.mp h2]
              exact Or.inr ⟨List.mem_cons_self x xs, hov⟩
        · simp only [hov, if_false] at hacc
          exact Or.inl hacc
      · exact Or.inr ⟨List.mem_cons_of_mem x hxs, hov⟩

/-- C8: every name `availableInjectionNames` exposes after
`_initializeInjectionScripts` denotes a script both loaded by the host's
post-processing plugin and backed by a JSON overlay of the same name; starting
from any `_injection_scripts` state already satisfying this (in particular the
empty initial state), a host-discovered script without an overlay is never
exposed. -/
theorem availableInjectionNames_loaded_and_overlaid
    (loadedScripts overlayIds existing : List Str)
    (hex : ∀ e ∈ existing, e ∈ loadedScripts ∧ e ∈ overlayIds) :
    ∀ nm ∈ availableInjectionNames
        (initializeInjectionScripts loadedScripts overlayIds existing),
      nm ∈ loadedScripts ∧ nm ∈ overlayIds := by
  intro nm h
  rcases initializeInjectionScripts_mem overlayIds loadedScripts existing nm h with
    hacc | hok
  · exact hex nm hacc
  · exact hok

/-- C8 witness: a concrete state with one loaded script carrying an overlay
and one without. -/
theorem availableInjectionNames_loaded_and_overlaid_witness :
    (∀ e ∈ ([] : List Str), e ∈ [['A'], ['B']] ∧ e ∈ [['A']]) ∧
    (∀ nm ∈ availableInjectionNames
        (initializeInjectionScripts [['A'], ['B']] [['A']] []),
      nm ∈ [['A'], ['B']] ∧ nm ∈ [['A']]) :=
  ⟨by decide,
   availableInjectionNames_loaded_and_overlaid [['A'], ['B']] [['A']] [] (by decide)⟩

/-! ## C9: defensive getters -/

/-- C9: the defensive getters return their documented defaults instead of
raising: `showInjectionPanel` and `canAddInjections` are `False` whenever the
active-view attribute lookup fails (modelled as `none`), and
`selectedInjectionName` is the empty string whenever Python indexing of the
names raises `IndexError` (modelled as `pyGetItem` returning `none`); all
three are total functions. -/
theorem defensiveGetters_default (ovn : Option Str) (ova : Option Bool)
    (names : List Str) (idx : Int)
    (h1 : ovn = none) (h2 : ova = none) (h3 : pyGetItem names idx = none) :
    showInjectionPanel ovn = false ∧ canAddInjections ova = false ∧
      selectedInjectionName names idx = [] := by
  subst h1
  subst h2
  refine ⟨rfl, rfl, ?_⟩
  simp [selectedInjectionName, h3]

/-- C9 witness: no active view, and index 1 into a singleton name list. -/
theorem defensiveGetters_default_witness :
    pyGetItem [['A']] 1 = none ∧
      (showInjectionPanel none = false ∧ canAddInjections none = false ∧
        selectedInjectionName [['A']] 1 = []) :=
  ⟨by decide, defensiveGetters_default none none [['A']] 1 rfl rfl (by decide)⟩

/-! ## C4 and C6: adding and removing injections -/

theorem addInjection_of_not_mem (ns : PScript) (ln : Int) (l : List PScript)
    (h : ∀ s ∈ l, s.layerNumber ≠ some ln) : addInjection ns ln l = l ++ [ns] := by
  induction l with
  | nil => rfl
  | cons s rest ih =>
      simp only [addInjection]
      rw [if_neg (h s (List.mem_cons_self s rest))]
      rw [ih (fun t ht => h t (List.mem_cons_of_mem s ht))]
      rfl

theorem addInjection_of_mem (ns : PScript) (ln : Int) (l : List PScript)
    (h : ∃ s ∈ l, s.layerNumber = some ln) :
    ∃ l₁ s l₂, l = l₁ ++ s :: l₂ ∧ (∀ t ∈ l₁, t.layerNumber ≠ some ln) ∧
      s.layerNumber = some ln ∧ addInjection ns ln l = l₁ ++ ns :: l₂ := by
  induction l with
  | nil =>
      rcases h with ⟨s, hs, _⟩
      exact absurd hs (List.not_mem_nil s)
  | cons s rest ih =>
      by_cases hs : s.layerNumber = some ln
      · exact ⟨[], s, rest, rfl, by simp, hs, by simp [addInjection, hs]⟩
      · have h2 : ∃ t ∈ rest, t.layerNumber = some ln := by
          rcases h with ⟨t, ht, hlt⟩
          rcases List.mem_cons.mp ht with h3 | h3
          · exact absurd (h3 ▸ hlt) hs
          · exact ⟨t, h3, hlt⟩
        rcases ih h2 with ⟨l₁, t, l₂, heq, hclean, hlt, hres⟩
        refine ⟨s :: l₁, t, l₂, by rw [heq]; rfl, ?_, hlt, ?_⟩
        · intro u hu
          rcases List.mem_cons.mp hu with h3 | h3
          · rw [h3]; exact hs
          · exact hclean u h3
        · simp only [addInjection, hs, if_false]
          rw [hres]
          rfl

/-- C4: `_addInjection(layer_number)` replaces the first injection script
already storing that layer in place (length unchanged) or, when none does,
appends the new script (length grows by one); consequently distinctness of the
stored layer numbers of the injection scripts is preserved. -/
theorem addInjection_spec (ns : PScript) (ln : Int) (l : List PScript)
    (hns : ns.layerNumber = some ln) :
    ((∀ s ∈ l, s.layerNumber ≠ some ln) →
        addInjection ns ln l = l ++ [ns] ∧
        (addInjection ns ln l).length = l.length + 1) ∧
    ((∃ s ∈ l, s.layerNumber = some ln) →
      ∃ l₁ s l₂, l = l₁ ++ s :: l₂ ∧ (∀ t ∈ l₁, t.layerNumber ≠ some ln) ∧
        s.layerNumber = some ln ∧ addInjection ns ln l = l₁ ++ ns :: l₂ ∧
        (addInjection ns ln l).length = l.length) ∧
    ((injectionLayers l).Nodup → (injectionLayers (addInjection ns ln l)).Nodup) := by
  refine ⟨?_, ?_, ?_⟩
  · intro h
    refine ⟨addInjection_of_not_mem ns ln l h, ?_⟩
    rw [addInjection_of_not_mem ns ln l h]
    simp
  · intro h
    rcases addInjection_of_mem ns ln l h with ⟨l₁, s, l₂, heq, hclean, hs, hres⟩
    refine ⟨l₁, s, l₂, heq, hclean, hs, hres, ?_⟩
    rw [hres, heq]
    simp
  · intro hnd
    by_cases hex : ∃ s ∈ l, s.layerNumber = some ln
    · rcases addInjection_of_mem ns ln l hex with ⟨l₁, s, l₂, heq, hclean, hs, hres⟩
      rw [hres]
      rw [heq] at hnd
      simp only [injectionLayers, List.filterMap_append, List.filterMap_cons, hs, hns] at hnd ⊢
      exact hnd
    · push_neg at hex
      rw [addInjection_of_not_mem ns ln l hex]
      simp only [injectionLayers, List.filterMap_append, List.filterMap_cons, hns,
        List.filterMap_nil]
      refine List.Nodup.append hnd (by simp) ?_
      intro a ha hb
      rw [List.mem_singleton.mp hb] at ha
      rcases List.mem_filterMap.mp ha with ⟨s, hsl, hsv⟩
      exact hex s hsl hsv

/-- C4 witness: adding at layer 5 over a list already holding an injection at
layer 5 replaces it. -/
theorem addInjection_spec_witness :
    (PScript.mk (some 5) ['N']).layerNumber = some 5 ∧
    (∃ l₁ s l₂, [PScript.mk (some 5) ['O']] = l₁ ++ s :: l₂ ∧
      (∀ t ∈ l₁, t.layerNumber ≠ some 5) ∧ s.layerNumber = some 5 ∧
      addInjection (PScript.mk (some 5) ['N']) 5 [PScript.mk (some 5) ['O']] =
        l₁ ++ PScript.mk (some 5) ['N'] :: l₂ ∧
      (addInjection (PScript.mk (some 5) ['N']) 5 [PScript.mk (some 5) ['O']]).length = 1) := by
  have h := addInjection_spec (PScript.mk (some 5) ['N']) 5 [PScript.mk (some 5) ['O']] rfl
  exact ⟨rfl, h.2.1 ⟨PScript.mk (some 5) ['O'], List.mem_cons_self _ _, rfl⟩⟩

theorem removeInjection_of_not_mem (ln : Int) (l : List PScript)
    (h : ∀ s ∈ l, s.layerNumber ≠ some ln) : removeInjection ln l = l := by
  induction l with
  | nil => rfl
  | cons s rest ih =>
      simp only [removeInjection]
      rw [if_neg (h s (List.mem_cons_self s rest))]
      rw [ih (fun t ht => h t (List.mem_cons_of_mem s ht))]

theorem removeInjection_of_mem (ln : Int) (l : List PScript)
    (h : ∃ s ∈ l, s.layerNumber = some ln) :
    ∃ l₁ s l₂, l = l₁ ++ s :: l₂ ∧ (∀ t ∈ l₁, t.layerNumber ≠ some ln) ∧
      s.layerNumber = some ln ∧ removeInjection ln l = l₁ ++ l₂ := by
  induction l with
  | nil =>
      rcases h with ⟨s, hs, _⟩
      exact absurd hs (List.not_mem_nil s)
  | cons s rest ih =>
      by_cases hs : s.layerNumber = some ln
      · exact ⟨[], s, rest, rfl, by simp, hs, by simp [removeInjection, hs]⟩
      · have h2 : ∃ t ∈ rest, t.layerNumber = some ln := by
          rcases h with ⟨t, ht, hlt⟩
          rcases List.mem_cons.mp ht with h3 | h3
          · exact absurd (h3 ▸ hlt) hs
          · exact ⟨t, h3, hlt⟩
        rcases ih h2 with ⟨l₁, t, l₂, heq, hclean, hlt, hres⟩
        refine ⟨s :: l₁, t, l₂, by rw [heq]; rfl, ?_, hlt, ?_⟩
        · intro u hu
          rcases List.mem_cons.mp hu with h3 | h3
          · rw [h3]; exact hs
          · exact hclean u h3
        · simp only [removeInjection, hs, if_false]
          rw [hres]
          rfl

/-- C6: `_removeInjection(layer_number)` removes at most one element — the
first injection script storing that layer — leaving all other scripts in their
original relative order, and leaves the list unchanged when no injection
script stores that layer. -/
theorem removeInjection_spec (ln : Int) (l : List PScript) :
    ((∀ s ∈ l, s.layerNumber ≠ some ln) → removeInjection ln l = l) ∧
    ((∃ s ∈ l, s.layerNumber = some ln) →
      ∃ l₁ s l₂, l = l₁ ++ s :: l₂ ∧ (∀ t ∈ l₁, t.layerNumber ≠ some ln) ∧
        s.layerNumber = some ln ∧ removeInjection ln l = l₁ ++ l₂) :=
  ⟨removeInjection_of_not_mem ln l, removeInjection_of_mem ln l⟩

/-- C6 witness: removing layer 5 from a two-script list removes exactly the
matching first script. -/
theorem removeInjection_spec_witness :
    (∃ s ∈ [PScript.mk (some 5) ['O'], PScript.mk none ['P']], s.layerNumber = some 5) ∧
    (∃ l₁ s l₂, [PScript.mk (some 5) ['O'], PScript.mk none ['P']] = l₁ ++ s :: l₂ ∧
      (∀ t ∈ l₁, t.layerNumber ≠ some 5) ∧ s.layerNumber = some 5 ∧
      removeInjection 5 [PScript.mk (some 5) ['O'], PScript.mk none ['P']] = l₁ ++ l₂) := by
  have hex : ∃ s ∈ [PScript.mk (some 5) ['O'], PScript.mk none ['P']],
      s.layerNumber = some 5 :=
    ⟨PScript.mk (some 5) ['O'], List.mem_cons_self _ _, rfl⟩
  exact ⟨hex, (removeInjection_spec 5 [PScript.mk (some 5) ['O'], PScript.mk none ['P']]).2 hex⟩

/-! ## C7: the models are sorted ascending by layer number -/

theorem insertSortedBy_mem (key : α → Int) (e : α) (l : List α) (x : α)
    (h : x ∈ insertSortedBy key e l) : x = e ∨ x ∈ l := by
  induction l with
  | nil =>
      simp only [insertSortedBy, List.mem_singleton] at h
      exact Or.inl h
  | cons b rest ih =>
      simp only [insertSortedBy] at h
      by_cases hle : key b ≤ key e
      · simp only [hle, if_true, List.mem_cons] at h
        rcases h with h | h
        · exact Or.inr (List.mem_cons.mpr (Or.inl h))
        · rcases ih h with h2 | h2
          · exact Or.inl h2
          · exact Or.inr (List.mem_cons_of_mem b h2)
      · simp only [hle, if_false, List.mem_cons] at h
        rcases h with h | h
        · exact Or.inl h
        · exact Or.inr (List.mem_cons.mpr h)

theorem insertSortedBy_pairwise (key : α → Int) (e : α) (l : List α)
    (h : l.Pairwise (fun a b => key a ≤ key b)) :
    (insertSortedBy key e l).Pairwise (fun a b => key a ≤ key b) := by
  induction l with
  | nil => simp [insertSortedBy]
  | cons b rest ih =>
      rcases List.pairwise_cons.mp h with ⟨hb, hrest⟩
      simp only [insertSortedBy]
      by_cases hle : key b ≤ key e
      · simp only [hle, if_true]
        rw [List.pairwise_cons]
        refine ⟨?_, ih hrest⟩
        intro x hx
        rcases insertSortedBy_mem key e rest x hx with h2 | h2
        · rw [h2]; exact hle
        · exact hb x h2
      · simp only [hle, if_false]
        rw [List.pairwise_cons]
        constructor
        · intro x hx
          rcases List.mem_cons.mp hx with h2 | h2
          · rw [h2]; exact le_of_not_le hle
          · exact le_trans (le_of_not_le hle) (hb x h2)
        · exact h

theorem pySortedBy_pairwise (key : α → Int) (l : List α) :
    (pySortedBy key l).Pairwise (fun a b => key a ≤ key b) := by
  unfold pySortedBy
  have hinv : ∀ (l2 acc : List α), acc.Pairwise (fun a b => key a ≤ key b) →
      (l2.foldl (fun acc e => insertSortedBy key e acc) acc).Pairwise
        (fun a b => key a ≤ key b) := by
    intro l2
    induction l2 with
    | nil => intro acc h; exact h
    | cons x xs ih =>
        intro acc h
        exact ih _ (insertSortedBy_pairwise key x acc h)
  exact hinv l [] (by simp)

/-- C7: `activeInjectionsModel` and `activeScriptsModel` always return their
entries sorted in ascending order of the layer-number field, for every state
of the underlying post-processing script list (and script table). -/
theorem models_sorted_by_layer (scripts : List PScript) (table : List TableEntry)
    (gscripts : List GScript) :
    (activeInjectionsModel scripts).Pairwise (fun a b => a.layerNumber ≤ b.layerNumber) ∧
    (activeScriptsModel table gscripts).Pairwise
      (fun a b => a.layerNumber ≤ b.layerNumber) :=
  ⟨pySortedBy_pairwise _ _, pySortedBy_pairwise _ _⟩

/-! ## C3: the insertion scripts -/

theorem any_eq_isSome_findIdx (p : α → Bool) (l : List α) :
    l.any p = (l.findIdx? p).isSome := by
  induction l with
  | nil => rfl
  | cons a l ih =>
      rw [List.any_cons, List.findIdx?_cons]
      by_cases ha : p a
      · simp [ha]
      · simp only [Bool.not_eq_true] at ha
        simp [ha, ih]

theorem executeInsertCore_spec (target : Int) (ins : Str) (gcode : List Str) :
    insertionSpec target ins gcode (executeInsertCore target ins gcode) := by
  induction gcode with
  | nil =>
      simp [insertionSpec, firstMatchClump, executeInsertCore, List.findIdx?]
  | cons clump rest ih =>
      unfold insertionSpec firstMatchClump
      cases hin : (splitNl clump).findIdx? (layerLineMatches target) with
      | some i =>
          have hany : (splitNl clump).any (layerLineMatches target) = true := by
            rw [any_eq_isSome_findIdx, hin]
            rfl
          rw [List.findIdx?_cons]
          simp only [hany, if_true]
          refine ⟨i, ?_, ?_⟩
          · simpa using hin
          · show executeInsertCore target ins (clump :: rest) = _
            simp only [executeInsertCore, hin]
            simp
      | none =>
          have hany : (splitNl clump).any (layerLineMatches target) = false := by
            rw [any_eq_isSome_findIdx, hin]
            rfl
          rw [List.findIdx?_cons]
          simp only [hany, Bool.false_eq_true, if_false, List.findIdx?_succ]
          have hexec : executeInsertCore target ins (clump :: rest) =
              clump :: executeInsertCore target ins rest := by
            simp [executeInsertCore, hin]
          unfold insertionSpec firstMatchClump at ih
          cases hrest : rest.findIdx?
              (fun c => (splitNl c).any (layerLineMatches target)) with
          | none =>
              rw [hrest] at ih
              simp only [Option.map_none']
              rw [hexec, ih]
          | some j =>
              rw [hrest] at ih
              rcases ih with ⟨i2, hi2, hout⟩
              simp only [Option.map_some']
              refine ⟨i2, ?_, ?_⟩
              · simpa using hi2
              · rw [hexec, hout]
                rfl

/-- C3: both `InsertGcodeAtLayer.execute` and `SwapFilament.execute` insert
their configured gcode text as exactly one new line entry immediately after
the first line that starts with `;LAYER:` and whose integer suffix equals the
`insert_layer_number` setting, modify only the single gcode element containing
that line, and return the input unchanged when no line matches. -/
theorem execute_insertion (target : Int) (gcodeSetting description : Str)
    (gcode : List Str) :
    insertionSpec target (insertGcodeTransform gcodeSetting) gcode
        (InsertGcodeAtLayer_execute target gcodeSetting gcode) ∧
    insertionSpec target ("SWAP DESC=".data ++ description ++ [nlc]) gcode
        (SwapFilament_execute target description gcode) :=
  ⟨executeInsertCore_spec _ _ _, executeInsertCore_spec _ _ _⟩

/-! ## C2: `_enumerateLayerElapsedTime` -/

theorem layerPrefix_eq : layerPrefix = [';', 'L', 'A', 'Y', 'E', 'R', ':'] := rfl

theorem timePrefix_eq :
    timePrefix = [';', 'T', 'I', 'M', 'E', '_', 'E', 'L', 'A', 'P', 'S', 'E', 'D', ':'] := rfl

theorem timeMatch_layerMatch_disjoint (l : Str) (t : Rat) (h : timeMatch l = some t) :
    layerMatch l = none := by
  have hp : timePrefix.isPrefixOf l = true := by
    by_contra hc
    rw [Bool.not_eq_true] at hc
    unfold timeMatch at h
    rw [hc] at h
    simp at h
  unfold layerMatch
  rw [if_neg ?_]
  rw [Bool.not_eq_true, ← Bool.not_eq_true]
  intro hl
  rw [List.isPrefixOf_iff_prefix] at hp hl
  rcases hp with ⟨a, ha⟩
  rcases hl with ⟨b, hb⟩
  rw [← ha] at hb
  rw [timePrefix_eq, layerPrefix_eq] at hb
  simp at hb

theorem lastLayerFrom_cons (c : Nat) (l : Str) (ls : List Str) :
    lastLayerFrom c (l :: ls) =
      lastLayerFrom (match layerMatch l with
        | some n => n + 1
        | none => c) ls := by
  simp [lastLayerFrom, List.foldl_cons]

theorem specFrom_tail (l : Str) (ls : List Str) (c c2 : Nat)
    (hstep : (match layerMatch l with | some n => n + 1 | none => c) = c2) :
    (List.range ls.length).filterMap ((fun i =>
        (timeMatch ((l :: ls).getD i [])).map
          (fun t => (lastLayerFrom c ((l :: ls).take i), t))) ∘ (fun i => i + 1)) =
      (List.range ls.length).filterMap (fun i =>
        (timeMatch (ls.getD i [])).map (fun t => (lastLayerFrom c2 (ls.take i), t))) := by
  have hfun : ((fun i =>
      (timeMatch ((l :: ls).getD i [])).map
        (fun t => (lastLayerFrom c ((l :: ls).take i), t))) ∘ (fun i => i + 1)) =
      fun i => (timeMatch (ls.getD i [])).map
        (fun t => (lastLayerFrom c2 (ls.take i), t)) := by
    funext i
    simp only [Function.comp_apply, List.getD_cons_succ, List.take_succ_cons]
    rw [lastLayerFrom_cons, hstep]
  rw [hfun]

theorem eletLines_eq_spec (lines : List Str) :
    ∀ (c : Nat) (acc : List (Nat × Rat)),
      lines.foldl eletLineStep (c, acc) =
        (lastLayerFrom c lines,
         acc ++ (List.range lines.length).filterMap (fun i =>
           (timeMatch (lines.getD i [])).map
             (fun t => (lastLayerFrom c (lines.take i), t)))) := by
  induction lines with
  | nil =>
      intro c acc
      simp [lastLayerFrom]
  | cons l ls ih =>
      intro c acc
      rw [List.foldl_cons]
      rw [List.length_cons, List.range_succ_eq_map, List.filterMap_cons,
        List.filterMap_map]
      cases hlm : layerMatch l with
      | some n =>
          cases htm : timeMatch l with
          | some t =>
              rw [timeMatch_layerMatch_disjoint l t htm] at hlm
              cases hlm
          | none =>
              have hstep : eletLineStep (c, acc) l = (n + 1, acc) := by
                simp [eletLineStep, hlm, htm]
              rw [hstep, ih (n + 1) acc]
              rw [specFrom_tail l ls c (n + 1) (by rw [hlm]), lastLayerFrom_cons, hlm]
              simp [htm]
      | none =>
          cases htm : timeMatch l with
          | some t =>
              have hstep : eletLineStep (c, acc) l = (c, acc ++ [(c, t)]) := by
                simp [eletLineStep, hlm, htm]
              rw [hstep, ih c (acc ++ [(c, t)])]
              rw [specFrom_tail l ls c c (by rw [hlm]), lastLayerFrom_cons, hlm]
              simp only [List.getD_cons_zero, List.take_zero, htm, Option.map_some']
              rw [List.append_assoc]
              simp [lastLayerFrom]
          | none =>
              have hstep : eletLineStep (c, acc) l = (c, acc) := by
                simp [eletLineStep, hlm, htm]
              rw [hstep, ih c acc]
              rw [specFrom_tail l ls c c (by rw [hlm]), lastLayerFrom_cons, hlm]
              simp [htm]

/-- C2: `_enumerateLayerElapsedTime` yields exactly one pair per elapsed-time
line of the flattened gcode lines, in order, whose time is the parsed matched
number and whose layer number is one plus the integer of the most recent
preceding layer-marker line (0 when none precedes); clump boundaries do not
affect the single pass. -/
theorem enumerateLayerElapsedTime_eq_spec (gcode : List Str) :
    enumerateLayerElapsedTime gcode = eletSpec gcode := by
  unfold enumerateLayerElapsedTime eletSpec
  have h1 : (flatLines gcode).foldl eletLineStep ((0 : Nat), ([] : List (Nat × Rat))) =
      gcode.foldl eletClumpStep ((0 : Nat), ([] : List (Nat × Rat))) := by
    unfold flatLines
    rw [List.foldl_flatten, List.foldl_map]
    rfl
  rw [← h1, eletLines_eq_spec (flatLines gcode) 0 []]
  simp

/-! ## C5: `recursiveDictOverlay` -/

theorem dictGet_cons (kv : Str × PyVal) (rest : List (Str × PyVal)) (k : Str) :
    dictGet (kv :: rest) k = if kv.1 = k then some kv.2 else dictGet rest k := by
  simp only [dictGet, List.find?_cons]
  by_cases h : kv.1 = k
  · simp [h]
  · simp [h]

theorem dictGet_map_set_self (k : Str) (v : PyVal) :
    ∀ d : List (Str × PyVal), d.any (fun kv => decide (kv.1 = k)) = true →
      dictGet (d.map (fun kv => if kv.1 = k then (k, v) else kv)) k = some v := by
  intro d
  induction d with
  | nil => intro h; simp at h
  | cons kv rest ih =>
      intro h
      simp only [List.map_cons]
      by_cases hk : kv.1 = k
      · simp only [hk, if_true]
        rw [dictGet_cons]
        simp
      · simp only [hk, if_false]
        rw [dictGet_cons]
        simp only [hk, if_false]
        apply ih
        simp only [List.any_cons, Bool.or_eq_true, decide_eq_true_eq] at h
        rcases h with h | h
        · exact absurd h hk
        · simpa using h

theorem dictGet_map_set_ne (k : Str) (v : PyVal) (k2 : Str) (hne : k2 ≠ k) :
    ∀ d : List (Str × PyVal),
      dictGet (d.map (fun kv => if kv.1 = k then (k, v) else kv)) k2 = dictGet d k2 := by
  intro d
  induction d with
  | nil => rfl
  | cons kv rest ih =>
      simp only [List.map_cons]
      by_cases hk : kv.1 = k
      · simp only [hk, if_true]
        rw [dictGet_cons, dictGet_cons]
        have h1 : ¬(k = k2) := fun he => hne he.symm
        simp only [h1, if_false, hk]
        exact ih
      · simp only [hk, if_false]
        rw [dictGet_cons, dictGet_cons]
        by_cases h2 : kv.1 = k2
        · simp [h2]
        · simp only [h2, if_false]
          exact ih

theorem dictGet_append_single_self (k : Str) (v : PyVal) :
    ∀ d : List (Str × PyVal), d.any (fun kv => decide (kv.1 = k)) = false →
      dictGet (d ++ [(k, v)]) k = some v := by
  intro d
  induction d with
  | nil =>
      intro _
      rw [List.nil_append, dictGet_cons]
      simp
  | cons kv rest ih =>
      intro h
      simp only [List.any_cons, Bool.or_eq_false_iff, decide_eq_false_iff_not] at h
      rw [List.cons_append, dictGet_cons, if_neg h.1]
      apply ih
      simp only [List.any_eq_false, decide_eq_true_eq]
      intro x hx
      have := h.2
      simp only [List.any_eq_false, decide_eq_true_eq] at this
      exact this x hx

theorem dictGet_append_single_ne (k : Str) (v : PyVal) (k2 : Str) (hne : k2 ≠ k) :
    ∀ d : List (Str × PyVal), dictGet (d ++ [(k, v)]) k2 = dictGet d k2 := by
  intro d
  induction d with
  | nil =>
      rw [List.nil_append, dictGet_cons]
      simp only [dictGet, List.find?_nil, Option.map_none']
      rw [if_neg (fun he : k = k2 => hne he.symm)]
  | cons kv rest ih =>
      rw [List.cons_append, dictGet_cons, dictGet_cons]
      by_cases h2 : kv.1 = k2
      · simp [h2]
      · simp only [h2, if_false]
        exact ih

theorem dictGet_dictSet_self (k : Str) (v : PyVal) (d : List (Str × PyVal)) :
    dictGet (dictSet d k v) k = some v := by
  unfold dictSet
  by_cases h : d.any (fun kv => decide (kv.1 = k)) = true
  · simp only [h, if_true]
    exact dictGet_map_set_self k v d h
  · rw [Bool.not_eq_true] at h
    simp only [h, Bool.false_eq_true, if_false]
    exact dictGet_append_single_self k v d h

theorem dictGet_dictSet_ne (k : Str) (v : PyVal) (k2 : Str) (d : List (Str × PyVal))
    (hne : k2 ≠ k) : dictGet (dictSet d k v) k2 = dictGet d k2 := by
  unfold dictSet
  by_cases h : d.any (fun kv => decide (kv.1 = k)) = true
  · simp only [h, if_true]
    exact dictGet_map_set_ne k v k2 hne d
  · rw [Bool.not_eq_true] at h
    simp only [h, Bool.false_eq_true, if_false]
    exact dictGet_append_single_ne k v k2 hne d

/-- C5 (amended): whenever `recursiveDictOverlay` on two dictionaries with
distinct overlay keys returns (rather than raising on a dictionary overlaid
onto a non-dictionary value), the result is the original dictionary mutated so
that every overlay key holds the overlay's primitive value, or the recursive
merge of the original's value at that key (an empty dictionary when absent)
with the overlay's dictionary value; every key absent from the overlay keeps
its original value. -/
theorem recursiveDictOverlay_spec (o : List (Str × PyVal)) :
    ∀ (d : List (Str × PyVal)) (r : PyVal),
      (o.map Prod.fst).Nodup →
      recursiveDictOverlay (PyVal.dict d) (PyVal.dict o) = Except.ok r →
      ∃ rd, r = PyVal.dict rd ∧
        (∀ k, (∀ v, (k, v) ∉ o) → dictGet rd k = dictGet d k) ∧
        (∀ k p, (k, PyVal.prim p) ∈ o → dictGet rd k = some (PyVal.prim p)) ∧
        (∀ k sub, (k, PyVal.dict sub) ∈ o →
          ∃ m, recursiveDictOverlay ((dictGet d k).getD (PyVal.dict []))
              (PyVal.dict sub) = Except.ok m ∧ dictGet rd k = some m) := by
  induction o with
  | nil =>
      intro d r hnd hok
      have hr : PyVal.dict d = r := by
        simpa [recursiveDictOverlay, rdoGo] using hok
      refine ⟨d, hr.symm, fun k _ => rfl, ?_, ?_⟩
      · intro k p hp
        exact absurd hp (List.not_mem_nil _)
      · intro k sub hs
        exact absurd hs (List.not_mem_nil _)
  | cons kv rest ih =>
      obtain ⟨k0, v0⟩ := kv
      intro d r hnd hok
      have hnd2 := List.nodup_cons.mp (show (k0 :: rest.map Prod.fst).Nodup from hnd)
      have hk0 : k0 ∉ rest.map Prod.fst := hnd2.1
      have hndr : (rest.map Prod.fst).Nodup := hnd2.2
      cases v0 with
      | prim p0 =>
          have hok2 : recursiveDictOverlay (PyVal.dict (dictSet d k0 (PyVal.prim p0)))
              (PyVal.dict rest) = Except.ok r := by
            simpa [recursiveDictOverlay, rdoGo] using hok
          rcases ih (dictSet d k0 (PyVal.prim p0)) r hndr hok2 with
            ⟨rd, hr, hframe, hprim, hdict⟩
          refine ⟨rd, hr, ?_, ?_, ?_⟩
          · intro k hknot
            have hkne : k ≠ k0 :=
              fun he => hknot (PyVal.prim p0) (he ▸ List.mem_cons_self _ _)
            rw [hframe k (fun v hv => hknot v (List.mem_cons_of_mem _ hv))]
            exact dictGet_dictSet_ne k0 (PyVal.prim p0) k d hkne
          · intro k p hp
            rcases List.mem_cons.mp hp with h | h
            · have h1 : k = k0 := congrArg Prod.fst h
              have h2 : PyVal.prim p = PyVal.prim p0 := congrArg Prod.snd h
              have hknr : ∀ v, (k, v) ∉ rest := by
                intro v hv
                exact hk0 (h1 ▸ List.mem_map.mpr ⟨(k, v), hv, rfl⟩)
              rw [hframe k hknr, h1, dictGet_dictSet_self, ← h2]
            · exact hprim k p h
          · intro k sub hs
            rcases List.mem_cons.mp hs with h | h
            · have h2 : PyVal.dict sub = PyVal.prim p0 := congrArg Prod.snd h
              cases h2
            · rcases hdict k sub h with ⟨m, hm, hg⟩
              have hkne : k ≠ k0 := by
                intro he
                exact hk0 (he ▸ List.mem_map.mpr ⟨(k, PyVal.dict sub), h, rfl⟩)
              rw [dictGet_dictSet_ne k0 (PyVal.prim p0) k d hkne] at hm
              exact ⟨m, hm, hg⟩
      | dict sub0 =>
          cases hmerge : recursiveDictOverlay ((dictGet d k0).getD (PyVal.dict []))
              (PyVal.dict sub0) with
          | error e =>
              rw [show recursiveDictOverlay (PyVal.dict d)
                  (PyVal.dict ((k0, PyVal.dict sub0) :: rest)) =
                rdoGo (PyVal.dict d) ((k0, PyVal.dict sub0) :: rest) from rfl] at hok
              rw [show rdoGo (PyVal.dict d) ((k0, PyVal.dict sub0) :: rest) =
                (match recursiveDictOverlay ((dictGet d k0).getD (PyVal.dict []))
                    (PyVal.dict sub0) with
                  | Except.ok merged => rdoGo (PyVal.dict (dictSet d k0 merged)) rest
                  | Except.error e => Except.error e) from rfl] at hok
              rw [hmerge] at hok
              cases hok
          | ok m0 =>
              have hok2 : recursiveDictOverlay (PyVal.dict (dictSet d k0 m0))
                  (PyVal.dict rest) = Except.ok r := by
                rw [show recursiveDictOverlay (PyVal.dict d)
                    (PyVal.dict ((k0, PyVal.dict sub0) :: rest)) =
                  (match recursiveDictOverlay ((dictGet d k0).getD (PyVal.dict []))
                      (PyVal.dict sub0) with
                    | Except.ok merged => rdoGo (PyVal.dict (dictSet d k0 merged)) rest
                    | Except.error e => Except.error e) from rfl] at hok
                rw [hmerge] at hok
                exact hok
              rcases ih (dictSet d k0 m0) r hndr hok2 with ⟨rd, hr, hframe, hprim, hdict⟩
              refine ⟨rd, hr, ?_, ?_, ?_⟩
              · intro k hknot
                have hkne : k ≠ k0 :=
                  fun he => hknot (PyVal.dict sub0) (he ▸ List.mem_cons_self _ _)
                rw [hframe k (fun v hv => hknot v (List.mem_cons_of_mem _ hv))]
                exact dictGet_dictSet_ne k0 m0 k d hkne
              · intro k p hp
                rcases List.mem_cons.mp hp with h | h
                · have h2 : PyVal.prim p = PyVal.dict sub0 := congrArg Prod.snd h
                  cases h2
                · exact hprim k p h
              · intro k sub hs
                rcases List.mem_cons.mp hs with h | h
                · have h1 : k = k0 := congrArg Prod.fst h
                  have h2 : PyVal.dict sub = PyVal.dict sub0 := congrArg Prod.snd h
                  have hknr : ∀ v, (k, v) ∉ rest := by
                    intro v hv
                    exact hk0 (h1 ▸ List.mem_map.mpr ⟨(k, v), hv, rfl⟩)
                  refine ⟨m0, ?_, ?_⟩
                  · rw [h1, h2]
                    exact hmerge
                  · rw [hframe k hknr, h1, dictGet_dictSet_self]
                · rcases hdict k sub h with ⟨m, hm, hg⟩
                  have hkne : k ≠ k0 := by
                    intro he
                    exact hk0 (he ▸ List.mem_map.mpr ⟨(k, PyVal.dict sub), h, rfl⟩)
                  rw [dictGet_dictSet_ne k0 m0 k d hkne] at hm
                  exact ⟨m, hm, hg⟩

/-- C5 counterexample: overlaying the dictionary value `{'b': 'y'}` onto the
key `'a'` whose original value is the primitive `'x'` raises in Python
(`TypeError`: item assignment on a non-dictionary) instead of returning the
mutated mapping, so the claim's unconditional "returns" fails. -/
theorem recursiveDictOverlay_counterexample :
    recursiveDictOverlay (PyVal.dict [(['a'], PyVal.prim ['x'])])
        (PyVal.dict [(['a'], PyVal.dict [(['b'], PyVal.prim ['y'])])]) =
      Except.error () := rfl

/-- C5 witness: merging a one-key overlay into the empty dictionary. -/
theorem recursiveDictOverlay_spec_witness :
    ((([((['a'] : Str), PyVal.prim ['y'])]).map Prod.fst).Nodup) ∧
    recursiveDictOverlay (PyVal.dict []) (PyVal.dict [(['a'], PyVal.prim ['y'])]) =
      Except.ok (PyVal.dict [(['a'], PyVal.prim ['y'])]) ∧
    (∃ rd, PyVal.dict [((['a'] : Str), PyVal.prim ['y'])] = PyVal.dict rd ∧
      (∀ k, (∀ v, (k, v) ∉ [((['a'] : Str), PyVal.prim ['y'])]) →
        dictGet rd k = dictGet [] k) ∧
      (∀ k p, (k, PyVal.prim p) ∈ [((['a'] : Str), PyVal.prim ['y'])] →
        dictGet rd k = some (PyVal.prim p)) ∧
      (∀ k sub, (k, PyVal.dict sub) ∈ [((['a'] : Str), PyVal.prim ['y'])] →
        ∃ m, recursiveDictOverlay ((dictGet [] k).getD (PyVal.dict []))
            (PyVal.dict sub) = Except.ok m ∧ dictGet rd k = some m)) :=
  ⟨by simp, rfl,
   recursiveDictOverlay_spec [(['a'], PyVal.prim ['y'])] []
     (PyVal.dict [(['a'], PyVal.prim ['y'])]) (by simp) rfl⟩

end PPG
